import Mathlib

/-!
Shallow embedding of the board engine in `src/sweep.rs` of minesweep-rs.

`BitSet` values are modelled as `Finset ℕ`, `Vec<Tile>` as `List Tile`,
`usize` as `ℕ` (with saturating subtraction written as truncated `Nat`
subtraction, which matches `usize::saturating_sub`), and fallible methods
returning `Result<T, Error>` as `Except Error T`.  The random sample drawn
inside `Board::new` (`rand::seq::index::sample`) is an external input; it is
passed to the model as an explicit parameter `samples`, the set of mine
indices that the sampler produced.
-/

set_option maxHeartbeats 1000000

/-- Modelled from the spec: the error type lives in `src/error.rs`, which is
not part of the sources; `sweep.rs` only uses the constructor
`Error::GetTile((i, j))`, the "no such tile" error of the spec. -/
inductive Error where
  | GetTile : ℕ × ℕ → Error
deriving DecidableEq

instance {ε α : Type} [DecidableEq ε] [DecidableEq α] : DecidableEq (Except ε α) := fun x y =>
  match x, y with
  | .ok a, .ok b =>
      if h : a = b then .isTrue (by rw [h]) else .isFalse (fun hh => h (by cases hh; rfl))
  | .error a, .error b =>
      if h : a = b then .isTrue (by rw [h]) else .isFalse (fun hh => h (by cases hh; rfl))
  | .ok _, .error _ => .isFalse (fun hh => by cases hh)
  | .error _, .ok _ => .isFalse (fun hh => by cases hh)

/-- One grid cell, mirroring `struct Tile`. -/
structure Tile where
  adjacent_tiles : Finset ℕ
  mine : Bool
  exposed : Bool
  flagged : Bool
  adjacent_mines : ℕ
deriving DecidableEq

/-- Mirrors `enum Increment`. -/
inductive Increment where
  | one
  | negOne
  | zero
deriving DecidableEq

/-- Mirrors `Increment::offset`; `NegOne` uses `usize::saturating_sub`,
which is truncated subtraction on `ℕ`. -/
def Increment.offset : Increment → ℕ → ℕ
  | .one, v => v + 1
  | .negOne, v => v - 1
  | .zero, v => v

/-- Mirrors `fn index_from_coord`. -/
def index_from_coord (p : ℕ × ℕ) (columns : ℕ) : ℕ :=
  p.1 * columns + p.2

/-- Mirrors `fn coord_from_index`. -/
def coord_from_index (index : ℕ) (columns : ℕ) : ℕ × ℕ :=
  (index / columns, index % columns)

/-- The constant `INCREMENTS` array of `fn adjacent`. -/
def INCREMENTS : List Increment := [.one, .negOne, .zero]

/-- Mirrors `fn adjacent`: the iterator over the (deduplicated-by-`BitSet`
downstream) linear indices of in-bounds neighbours of `p`. -/
def adjacent (p : ℕ × ℕ) (rows columns : ℕ) : List ℕ :=
  (INCREMENTS.flatMap (fun row_incr => INCREMENTS.map (fun c => (row_incr, c)))).filterMap
    (fun q =>
      let row_offset := q.1.offset p.1
      let column_offset := q.2.offset p.2
      if row_offset = p.1 ∧ column_offset = p.2 then none
      else
        match q.1, q.2 with
        | .zero, .zero => none
        | _, _ =>
          if row_offset < rows ∧ column_offset < columns then
            some (index_from_coord (row_offset, column_offset) columns)
          else none)

/-- Mirrors `struct Board`. -/
structure Board where
  tiles : List Tile
  rows : ℕ
  columns : ℕ
  mines : ℕ
  flagged_cells : ℕ
  correctly_flagged_mines : ℕ
  seen : Finset ℕ
deriving DecidableEq

/-- The tile built for enumeration index `i` at coordinate `point` inside the
`map` of `Board::new`; `adjacent_mines` is the fold summing membership of each
adjacent index in the sampled mine set. -/
def mkTile (rows columns : ℕ) (samples : Finset ℕ) (i : ℕ) (point : ℕ × ℕ) : Tile :=
  let adjacent_tiles := (adjacent point rows columns).toFinset
  { adjacent_tiles := adjacent_tiles
    mine := i ∈ samples
    exposed := false
    flagged := false
    adjacent_mines := adjacent_tiles.sum (fun index => if index ∈ samples then 1 else 0) }

/-- The row-major coordinate list `(0..rows).flat_map(|row| repeat(row).zip(0..columns))`
of `Board::new`. -/
def boardCoords (rows columns : ℕ) : List (ℕ × ℕ) :=
  (List.range rows).flatMap (fun row => (List.range columns).map (fun c => (row, c)))

/-- The board value built by `Board::new` once the mine sample is fixed. -/
def newBoard (rows columns mines : ℕ) (samples : Finset ℕ) : Board :=
  { tiles := (boardCoords rows columns).enum.map (fun q => mkTile rows columns samples q.1 q.2)
    rows := rows
    columns := columns
    mines := mines
    flagged_cells := 0
    correctly_flagged_mines := 0
    seen := ∅ }

/-- Mirrors `Board::new`; the function body never produces an `Err`. -/
def Board.new (rows columns mines : ℕ) (samples : Finset ℕ) : Except Error Board :=
  .ok (newBoard rows columns mines samples)

/-- Mirrors `Board::tile`: `tiles.get(index).ok_or(GetTile((i, j)))`. -/
def Board.tile (b : Board) (i j : ℕ) : Except Error Tile :=
  match b.tiles[index_from_coord (i, j) b.columns]? with
  | some t => .ok t
  | none => .error (Error.GetTile (i, j))

/-- Mirrors a write through `Board::tile_mut`: look the tile up mutably
(failing with `GetTile` exactly when `Board::tile` does) and apply `f` to it. -/
def Board.modifyTile (b : Board) (i j : ℕ) (f : Tile → Tile) : Except Error Board :=
  let index := index_from_coord (i, j) b.columns
  match b.tiles[index]? with
  | some t => .ok { b with tiles := b.tiles.set index (f t) }
  | none => .error (Error.GetTile (i, j))

/-- Mirrors `Board::available_flags` (the `assert!` is a runtime check, not
part of the returned value). -/
def Board.available_flags (b : Board) : ℕ :=
  b.mines - b.flagged_cells

/-- Mirrors `Board::won` (again ignoring the internal `assert!`). -/
def Board.won (b : Board) : Bool :=
  let nseen := b.seen.card
  let exposed_or_correctly_flagged := nseen + b.correctly_flagged_mines
  let ntiles := b.rows * b.columns
  ntiles = exposed_or_correctly_flagged || b.tiles.length - nseen = b.mines

/-- The argument of the `assert!` inside `Board::won`. -/
def Board.wonAssert (b : Board) : Prop :=
  b.seen.card + b.correctly_flagged_mines ≤ b.rows * b.columns

/-- The argument of the `assert!` inside `Board::available_flags`. -/
def Board.availableFlagsAssert (b : Board) : Prop :=
  b.flagged_cells ≤ b.mines

/-- Mirrors `Board::flag`.  Note that, as in the source, the
`correctly_flagged_mines` update happens before the three-way branch. -/
def Board.flag (b : Board) (i j : ℕ) : Except Error (Board × Bool) := do
  let nflagged := b.flagged_cells
  let tile ← b.tile i j
  let was_flagged := tile.flagged
  let flagged := !was_flagged
  let nmines := b.mines
  let b1 : Board := { b with
    correctly_flagged_mines :=
      b.correctly_flagged_mines + (if flagged && tile.mine then 1 else 0) }
  if was_flagged then
    let b2 : Board := { b1 with flagged_cells := b1.flagged_cells - 1 }
    let b3 ← b2.modifyTile i j (fun t => { t with flagged := flagged })
    pure (b3, flagged)
  else if nflagged < nmines && !tile.exposed then
    let b2 ← b1.modifyTile i j (fun t => { t with flagged := flagged })
    pure ({ b2 with flagged_cells := b2.flagged_cells + 1 }, flagged)
  else
    pure (b1, flagged)

/-- The tile update performed on a newly seen tile inside the flood-fill
loop of `Board::expose`: `tile.exposed = !(tile.mine || tile.flagged)`. -/
def exposeUpd (t : Tile) : Tile :=
  { t with exposed := !(t.mine || t.flagged) }

/-- Iterating a `BitSet` yields its elements in increasing order; this is the
ascending list of elements of a `Finset ℕ` (insertion sort keeps the
definition reducible by the kernel). -/
def ascList (s : Finset ℕ) : List ℕ :=
  Quot.liftOn s.val (fun l => l.insertionSort (· ≤ ·)) fun _ _ h =>
    List.eq_of_perm_of_sorted
      ((List.perm_insertionSort _ _).trans (h.trans (List.perm_insertionSort _ _).symm))
      (List.sorted_insertionSort _ _) (List.sorted_insertionSort _ _)

/-- The flood-fill `while let Some((r, c)) = coordinates.pop_front()` loop of
`Board::expose`, with an explicit structural fuel (the Rust loop terminates;
`exposeFuel` below is proved large enough that the fuel is never exhausted,
so the `0` case is never reached with a nonempty queue). `BitSet` iteration
is in increasing index order, hence `ascList`. -/
def exposeLoop : ℕ → Board → List (ℕ × ℕ) → Except Error Board
  | 0, b, _ => .ok b
  | _ + 1, b, [] => .ok b
  | fuel + 1, b, (r, c) :: rest =>
    let index := index_from_coord (r, c) b.columns
    if index ∈ b.seen then
      exposeLoop fuel b rest
    else
      match b.tiles[index]? with
      | none => .error (Error.GetTile (r, c))
      | some tile =>
        let b2 : Board := { b with
          seen := insert index b.seen
          tiles := b.tiles.set index (exposeUpd tile) }
        exposeLoop fuel b2
          (if tile.adjacent_mines = 0 then
            rest ++ ((ascList tile.adjacent_tiles).map
              (fun k => coord_from_index k b.columns))
          else rest)

/-- Fuel sufficient for the flood-fill loop started from a single coordinate
(at most `tiles.length` insertions, each enqueuing at most `tiles.length`
coordinates, plus the seed). -/
def exposeFuel (b : Board) : ℕ :=
  b.tiles.length * (b.tiles.length + 1) + 1

/-- Mirrors `Board::expose`. -/
def Board.expose (b : Board) (p : ℕ × ℕ) : Except Error (Board × Bool) := do
  let t ← b.tile p.1 p.2
  if t.mine then
    let b1 ← b.modifyTile p.1 p.2 (fun tl => { tl with exposed := true })
    pure (b1, true)
  else
    let b1 ← exposeLoop (exposeFuel b) b [(p.1, p.2)]
    pure (b1, false)

/-- Mirrors `Board::expose_all`: expose every coordinate in index order. -/
def Board.expose_all (b : Board) : Except Error Board :=
  (List.range b.tiles.length).foldlM
    (fun acc i => do
      let r ← acc.expose (coord_from_index i b.columns)
      pure r.1)
    b

/-- Mirrors `Board::flag_all` (not used by the claims' operations but part of
the engine). -/
def Board.flag_all (b : Board) : Board :=
  { b with tiles := b.tiles.map (fun t => { t with flagged := !t.exposed && t.mine }) }

/-- Board states reachable from a validly constructed board by any finite
sequence of successful `expose`, `expose_all` and `flag` calls.  The side
conditions on `samples` are the contract of `rand::seq::index::sample`:
`mines` distinct indices below `rows * columns`. -/
inductive Reachable : Board → Prop where
  | base {rows columns mines : ℕ} {samples : Finset ℕ} {b : Board} :
      Board.new rows columns mines samples = .ok b →
      (∀ i ∈ samples, i < rows * columns) →
      samples.card = mines →
      Reachable b
  | expose_step {b b' : Board} {p : ℕ × ℕ} {hit : Bool} :
      Reachable b → b.expose p = .ok (b', hit) → Reachable b'
  | expose_all_step {b b' : Board} :
      Reachable b → b.expose_all = .ok b' → Reachable b'
  | flag_step {b b' : Board} {i j : ℕ} {res : Bool} :
      Reachable b → b.flag i j = .ok (b', res) → Reachable b'

/-! ## Spec-side description of the adjacency set

The spec describes a tile's neighbours as the in-bounds cells at Chebyshev
distance exactly 1 (8-connectivity, excluding self, no wraparound).  These
definitions follow the spec's words; the theorems below relate them to the
`adjacent` function translated from the source. -/

/-- Chebyshev distance between grid coordinates `(r, c)` and `(a, b)`. -/
def chebDist (r c a b : ℕ) : ℕ :=
  max (Nat.dist r a) (Nat.dist c b)

/-- The spec's adjacency set of cell `(r, c)`: linear indices of all in-bounds
cells at Chebyshev distance exactly 1. -/
def specNeighbors (r c rows columns : ℕ) : Finset ℕ :=
  ((Finset.range rows ×ˢ Finset.range columns).filter
    (fun q => chebDist r c q.1 q.2 = 1)).image (fun q => q.1 * columns + q.2)

/-- Well-formedness of a board's immutable tile data: the length matches the
grid, every stored adjacency index is in range, and a tile with
`adjacent_mines = 0` has no mine among its stored neighbours.  All board
operations preserve this (they only touch `exposed`/`flagged`/counters), and
`newBoard` establishes it. -/
def WFT (tiles : List Tile) (rows columns : ℕ) : Prop :=
  tiles.length = rows * columns ∧
  (∀ (k : ℕ) (t : Tile), tiles[k]? = some t →
    t.adjacent_tiles ⊆ Finset.range tiles.length ∧
    (t.adjacent_mines = 0 →
      ∀ j ∈ t.adjacent_tiles, ((tiles[j]?).map Tile.mine).getD false = false))

def WF (b : Board) : Prop := WFT b.tiles b.rows b.columns

/-- Precondition on queued coordinates: the coordinate addresses a real tile
and that tile is not a mine. -/
def qGood (b : Board) (p : ℕ × ℕ) : Prop :=
  index_from_coord p b.columns < b.tiles.length ∧
  ((b.tiles[index_from_coord p b.columns]?).map Tile.mine).getD false = false

/-- Everything `exposeLoop` guarantees about its output board, relative to the
input board and queue. -/
structure LoopRel (b : Board) (queue : List (ℕ × ℕ)) (bf : Board) : Prop where
  rows_eq : bf.rows = b.rows
  columns_eq : bf.columns = b.columns
  mines_eq : bf.mines = b.mines
  fc_eq : bf.flagged_cells = b.flagged_cells
  cfm_eq : bf.correctly_flagged_mines = b.correctly_flagged_mines
  len_eq : bf.tiles.length = b.tiles.length
  seen_mono : b.seen ⊆ bf.seen
  queue_seen : ∀ p ∈ queue, index_from_coord p b.columns ∈ bf.seen
  seen_from : ∀ i ∈ bf.seen, i ∈ b.seen ∨
      (i < b.tiles.length ∧ ((b.tiles[i]?).map Tile.mine).getD false = false)
  closed : ∀ i t, i ∈ bf.seen → i ∉ b.seen → b.tiles[i]? = some t →
      t.adjacent_mines = 0 → ∀ j ∈ t.adjacent_tiles, j ∈ bf.seen
  frame : ∀ k : ℕ, (bf.tiles[k]? = b.tiles[k]? ∧ (k ∈ bf.seen → k ∈ b.seen)) ∨
      (k ∈ bf.seen ∧ k ∉ b.seen ∧ bf.tiles[k]? = (b.tiles[k]?).map exposeUpd)

/-- Fuel consumed by the loop is bounded by the queue length plus, for each
insertion, one slot for the pop plus the maximal number of enqueued
neighbours. -/
def loopFuelLB (b : Board) (queue : List (ℕ × ℕ)) : ℕ :=
  queue.length + (Finset.range b.tiles.length \ b.seen).card * (b.tiles.length + 1)

/-- The seen set only holds indices of real, non-mine tiles (the C10
invariant). -/
def SMF (b : Board) : Prop :=
  ∀ i ∈ b.seen, i < b.tiles.length ∧ ((b.tiles[i]?).map Tile.mine).getD false = false

/-- The board obtained by exposing the single tile of a mine-free 1-by-1
board (a concrete reachable state with a nonempty seen set). -/
def exposedBoard : Board :=
  match (newBoard 1 1 0 ∅).expose (0, 0) with
  | .ok x => x.1
  | .error _ => newBoard 1 1 0 ∅

lemma chebDist_eq_one_iff {r c a b : ℕ} :
    chebDist r c a b = 1 ↔
      ((a = r + 1 ∨ a + 1 = r ∨ a = r) ∧ (b = c + 1 ∨ b + 1 = c ∨ b = c) ∧
        ¬(a = r ∧ b = c)) := by
  unfold chebDist Nat.dist
  rcases Nat.le_total (r - a + (a - r)) (c - b + (b - c)) with h | h
  · rw [max_eq_right h]; omega
  · rw [max_eq_left h]; omega

lemma mem_specNeighbors {r c rows columns j : ℕ} :
    j ∈ specNeighbors r c rows columns ↔
      ∃ a b, a < rows ∧ b < columns ∧ chebDist r c a b = 1 ∧ j = a * columns + b := by
  simp only [specNeighbors, Finset.mem_image, Finset.mem_filter, Finset.mem_product,
    Finset.mem_range, Prod.exists]
  constructor
  · rintro ⟨a, b, ⟨⟨ha, hb⟩, hd⟩, hj⟩
    exact ⟨a, b, ha, hb, hd, hj.symm⟩
  · rintro ⟨a, b, ha, hb, hd, hj⟩
    exact ⟨a, b, ⟨⟨ha, hb⟩, hd⟩, hj.symm⟩

lemma card_specNeighbors_le (r c rows columns : ℕ) :
    (specNeighbors r c rows columns).card ≤ 8 := by
  classical
  refine le_trans Finset.card_image_le ?_
  have hsub : (Finset.range rows ×ˢ Finset.range columns).filter
      (fun q => chebDist r c q.1 q.2 = 1) ⊆
      (({r + 1, r - 1, r} : Finset ℕ) ×ˢ ({c + 1, c - 1, c} : Finset ℕ)).erase (r, c) := by
    intro q hq
    rw [Finset.mem_filter] at hq
    rw [chebDist_eq_one_iff] at hq
    rw [Finset.mem_erase, Finset.mem_product]
    simp only [Finset.mem_insert, Finset.mem_singleton]
    refine ⟨?_, ?_, ?_⟩
    · intro hqe
      rw [Prod.ext_iff] at hqe
      exact hq.2.2.2 ⟨hqe.1, hqe.2⟩
    · omega
    · omega
  refine le_trans (Finset.card_le_card hsub) ?_
  have hmem : ((r, c) : ℕ × ℕ) ∈
      (({r + 1, r - 1, r} : Finset ℕ) ×ˢ ({c + 1, c - 1, c} : Finset ℕ)) := by
    rw [Finset.mem_product]
    simp
  rw [Finset.card_erase_of_mem hmem, Finset.card_product]
  have h1 : ({r + 1, r - 1, r} : Finset ℕ).card ≤ 3 :=
    le_trans (Finset.card_insert_le _ _)
      (Nat.succ_le_succ (le_trans (Finset.card_insert_le _ _) (by simp)))
  have h2 : ({c + 1, c - 1, c} : Finset ℕ).card ≤ 3 :=
    le_trans (Finset.card_insert_le _ _)
      (Nat.succ_le_succ (le_trans (Finset.card_insert_le _ _) (by simp)))
  calc ({r + 1, r - 1, r} : Finset ℕ).card * ({c + 1, c - 1, c} : Finset ℕ).card - 1
      ≤ 3 * 3 - 1 := by
        exact Nat.sub_le_sub_right (Nat.mul_le_mul h1 h2) 1
    _ ≤ 8 := by norm_num

/-- The `adjacent` function of the source computes exactly the spec's
neighbour indices, for any in-bounds cell. -/
lemma mem_adjacent_iff {rows columns r c j : ℕ} (hr : r < rows) (hc : c < columns) :
    j ∈ adjacent (r, c) rows columns ↔
      ∃ a b, a < rows ∧ b < columns ∧ chebDist r c a b = 1 ∧ j = a * columns + b := by
  unfold adjacent INCREMENTS
  rw [List.mem_filterMap]
  constructor
  · rintro ⟨⟨ri, ci⟩, _, hf⟩
    cases ri <;> cases ci <;>
      simp only [Increment.offset, index_from_coord] at hf <;>
      split_ifs at hf with h1 h2 <;>
      simp only [Option.some.injEq, reduceCtorEq] at hf <;>
      rw [not_and_or] at h1 <;>
      (try simp only [not_true, or_false, false_or] at h1) <;>
      refine ⟨_, _, h2.1, h2.2, ?_, hf.symm⟩ <;>
      rw [chebDist_eq_one_iff] <;>
      omega
  · rintro ⟨a, b, ha, hb, hd, rfl⟩
    rw [chebDist_eq_one_iff] at hd
    obtain ⟨hda, hdb, hne⟩ := hd
    rcases hda with h | h | h <;> rcases hdb with h' | h' | h'
    · subst h; subst h'
      refine ⟨(.one, .one), by simp, ?_⟩
      simp only [Increment.offset, index_from_coord]
      rw [if_neg (by omega), if_pos ⟨ha, hb⟩]
    · subst h; subst h'
      refine ⟨(.one, .negOne), by simp, ?_⟩
      simp only [Increment.offset, index_from_coord, Nat.add_sub_cancel]
      rw [if_neg (by omega), if_pos ⟨ha, hb⟩]
    · subst h; subst h'
      refine ⟨(.one, .zero), by simp, ?_⟩
      simp only [Increment.offset, index_from_coord]
      rw [if_neg (by omega), if_pos ⟨ha, hb⟩]
    · subst h; subst h'
      refine ⟨(.negOne, .one), by simp, ?_⟩
      simp only [Increment.offset, index_from_coord, Nat.add_sub_cancel]
      rw [if_neg (by omega), if_pos ⟨ha, hb⟩]
    · subst h; subst h'
      refine ⟨(.negOne, .negOne), by simp, ?_⟩
      simp only [Increment.offset, index_from_coord, Nat.add_sub_cancel]
      rw [if_neg (by omega), if_pos ⟨ha, hb⟩]
    · subst h; subst h'
      refine ⟨(.negOne, .zero), by simp, ?_⟩
      simp only [Increment.offset, index_from_coord, Nat.add_sub_cancel]
      rw [if_neg (by omega), if_pos ⟨ha, hb⟩]
    · subst h; subst h'
      refine ⟨(.zero, .one), by simp, ?_⟩
      simp only [Increment.offset, index_from_coord]
      rw [if_neg (by omega), if_pos ⟨ha, hb⟩]
    · subst h; subst h'
      refine ⟨(.zero, .negOne), by simp, ?_⟩
      simp only [Increment.offset, index_from_coord, Nat.add_sub_cancel]
      rw [if_neg (by omega), if_pos ⟨ha, hb⟩]
    · exact absurd ⟨h, h'⟩ hne

/-- On an in-bounds cell, the collected adjacency `BitSet` equals the spec's
neighbour set. -/
lemma adjacent_toFinset_eq {rows columns r c : ℕ} (hr : r < rows) (hc : c < columns) :
    (adjacent (r, c) rows columns).toFinset = specNeighbors r c rows columns := by
  ext j
  rw [List.mem_toFinset, mem_adjacent_iff hr hc, mem_specNeighbors]

/-! ## Structure of freshly constructed boards -/

lemma boardCoords_eq (rows columns : ℕ) :
    boardCoords rows columns =
      (List.range (rows * columns)).map (fun i => (i / columns, i % columns)) := by
  induction rows with
  | zero => simp [boardCoords]
  | succ n ih =>
    rw [boardCoords, List.range_succ, List.flatMap_append]
    rw [show (List.range n).flatMap
        (fun row => (List.range columns).map (fun c => (row, c))) =
        boardCoords n columns from rfl]
    rw [ih, Nat.succ_mul, List.range_add, List.map_append]
    congr 1
    rw [List.flatMap_cons, List.flatMap_nil, List.append_nil, List.map_map]
    apply List.map_congr_left
    intro a ha
    rw [List.mem_range] at ha
    have hc : 0 < columns := by omega
    simp only [Function.comp_apply]
    have h1 : (n * columns + a) / columns = n := by
      rw [Nat.mul_comm n columns, Nat.mul_add_div hc, Nat.div_eq_of_lt ha, Nat.add_zero]
    have h2 : (n * columns + a) % columns = a := by
      rw [Nat.mul_comm n columns, Nat.mul_add_mod, Nat.mod_eq_of_lt ha]
    rw [h1, h2]

lemma length_boardCoords (rows columns : ℕ) :
    (boardCoords rows columns).length = rows * columns := by
  rw [boardCoords_eq, List.length_map, List.length_range]

lemma newBoard_tiles_length (rows columns mines : ℕ) (samples : Finset ℕ) :
    (newBoard rows columns mines samples).tiles.length = rows * columns := by
  simp [newBoard, length_boardCoords]

lemma newBoard_tiles_getElem? {rows columns mines k : ℕ} {samples : Finset ℕ}
    (h : k < rows * columns) :
    (newBoard rows columns mines samples).tiles[k]? =
      some (mkTile rows columns samples k (k / columns, k % columns)) := by
  have hk3 : k < (List.range (rows * columns)).length := by
    rw [List.length_range]; exact h
  have hcoord : (boardCoords rows columns)[k]? = some ((k / columns, k % columns)) := by
    rw [boardCoords_eq, List.getElem?_map, List.getElem?_eq_getElem hk3, List.getElem_range]
    rfl
  rw [newBoard]
  rw [List.getElem?_map, List.getElem?_enum, hcoord]
  rfl


lemma mkTile_adjacent_mines_eq (rows columns : ℕ) (samples : Finset ℕ) (i : ℕ) (p : ℕ × ℕ) :
    (mkTile rows columns samples i p).adjacent_mines =
      ((mkTile rows columns samples i p).adjacent_tiles.filter (· ∈ samples)).card := by
  rw [mkTile, Finset.card_filter]

lemma WF_newBoard (rows columns mines : ℕ) (samples : Finset ℕ) :
    WF (newBoard rows columns mines samples) := by
  unfold WF WFT
  constructor
  · rw [newBoard_tiles_length]; rfl
  · intro k t ht
    have hk : k < rows * columns := by
      by_contra hk
      rw [List.getElem?_eq_none] at ht
      · exact Option.noConfusion ht
      · rw [newBoard_tiles_length]; omega
    rw [newBoard_tiles_getElem? hk] at ht
    have ht' : t = mkTile rows columns samples k (k / columns, k % columns) :=
      (Option.some.injEq _ _ ▸ ht).symm
    have hcols : 0 < columns := by
      rcases Nat.eq_zero_or_pos columns with h | h
      · rw [h, Nat.mul_zero] at hk; omega
      · exact h
    have hrr : k / columns < rows := Nat.div_lt_of_lt_mul (by rw [Nat.mul_comm]; exact hk)
    have hcc : k % columns < columns := Nat.mod_lt _ hcols
    constructor
    · intro j hj
      rw [ht'] at hj
      rw [mkTile] at hj
      simp only [List.mem_toFinset] at hj
      rw [mem_adjacent_iff hrr hcc] at hj
      obtain ⟨a, b, ha, hb, _, rfl⟩ := hj
      rw [Finset.mem_range, newBoard_tiles_length]
      calc a * columns + b < a * columns + columns := by omega
        _ = (a + 1) * columns := by ring
        _ ≤ rows * columns := Nat.mul_le_mul_right _ ha
    · intro hm j hj
      rw [ht', mkTile_adjacent_mines_eq] at hm
      rw [Finset.card_eq_zero] at hm
      have hjs : j ∉ samples := by
        intro hjs
        have : j ∈ (mkTile rows columns samples k
            (k / columns, k % columns)).adjacent_tiles.filter (· ∈ samples) := by
          rw [Finset.mem_filter]
          exact ⟨by rw [ht'] at hj; exact hj, hjs⟩
        rw [hm] at this
        exact absurd this (Finset.not_mem_empty _)
      have hjlt : j < rows * columns := by
        rw [ht'] at hj
        rw [mkTile] at hj
        simp only [List.mem_toFinset] at hj
        rw [mem_adjacent_iff hrr hcc] at hj
        obtain ⟨a, b, ha, hb, _, rfl⟩ := hj
        calc a * columns + b < a * columns + columns := by omega
          _ = (a + 1) * columns := by ring
          _ ≤ rows * columns := Nat.mul_le_mul_right _ ha
      rw [newBoard_tiles_getElem? hjlt]
      simp only [Option.map_some', Option.getD_some]
      rw [mkTile]
      simp only [decide_eq_false_iff_not]
      exact hjs

/-! ## The flood-fill loop: helper lemmas -/

lemma mem_ascList {s : Finset ℕ} {a : ℕ} : a ∈ ascList s ↔ a ∈ s := by
  rcases s with ⟨m, hm⟩
  induction m using Quotient.inductionOn with
  | _ l =>
    show a ∈ l.insertionSort (· ≤ ·) ↔ _
    rw [(List.perm_insertionSort (· ≤ ·) l).mem_iff]
    rfl

lemma length_ascList (s : Finset ℕ) : (ascList s).length = s.card := by
  rcases s with ⟨m, hm⟩
  induction m using Quotient.inductionOn with
  | _ l =>
    show (l.insertionSort (· ≤ ·)).length = _
    rw [(List.perm_insertionSort (· ≤ ·) l).length_eq]
    rfl

lemma index_coord_roundtrip (j columns : ℕ) :
    index_from_coord (coord_from_index j columns) columns = j := by
  rw [index_from_coord, coord_from_index]
  exact Nat.div_add_mod' j columns

/-- The `.mine`-view of the tile list is untouched by a `set` that preserves
the `mine` field. -/
lemma map_mine_set {tiles : List Tile} {n : ℕ} {t t' : Tile}
    (hn : tiles[n]? = some t) (hm : t'.mine = t.mine) (j : ℕ) :
    (((tiles.set n t')[j]?).map Tile.mine).getD false =
      ((tiles[j]?).map Tile.mine).getD false := by
  rcases eq_or_ne n j with rfl | hne
  · have hlt : n < tiles.length := by
      by_contra hlt
      rw [List.getElem?_eq_none (by omega)] at hn
      exact Option.noConfusion hn
    rw [List.getElem?_set_eq hlt, hn]
    simp only [Option.map_some', Option.getD_some]
    exact hm
  · rw [List.getElem?_set_ne hne]

/-- A `set` preserving the immutable tile fields preserves well-formedness. -/
lemma WFT_set {tiles : List Tile} {rows columns : ℕ} (h : WFT tiles rows columns)
    {n : ℕ} {t t' : Tile} (hn : tiles[n]? = some t)
    (hmine : t'.mine = t.mine) (hadj : t'.adjacent_tiles = t.adjacent_tiles)
    (hmn : t'.adjacent_mines = t.adjacent_mines) :
    WFT (tiles.set n t') rows columns := by
  obtain ⟨hlen, hrest⟩ := h
  constructor
  · rw [List.length_set]; exact hlen
  · intro k u hu
    rcases eq_or_ne n k with rfl | hne
    · have hlt : n < tiles.length := by
        by_contra hlt
        rw [List.getElem?_eq_none (by omega)] at hn
        exact Option.noConfusion hn
      rw [List.getElem?_set_eq hlt] at hu
      have hut : u = t' := by
        injection hu with h
        exact h.symm
      obtain ⟨hsub, hz⟩ := hrest n t hn
      constructor
      · rw [hut, hadj, List.length_set]
        exact hsub
      · intro hm0 j hj
        rw [hut, hadj] at hj
        rw [map_mine_set hn hmine]
        exact hz (by rw [hut, hmn] at hm0; exact hm0) j hj
    · rw [List.getElem?_set_ne hne] at hu
      obtain ⟨hsub, hz⟩ := hrest k u hu
      constructor
      · rw [List.length_set]
        exact hsub
      · intro hm0 j hj
        rw [map_mine_set hn hmine]
        exact hz hm0 j hj



/-- The reflexive loop relation (for the cases where the loop stops at once). -/
lemma LoopRel.refl (b : Board) : LoopRel b [] b where
  rows_eq := rfl
  columns_eq := rfl
  mines_eq := rfl
  fc_eq := rfl
  cfm_eq := rfl
  len_eq := rfl
  seen_mono := Finset.Subset.refl _
  queue_seen := by intro p hp; exact absurd hp (List.not_mem_nil p)
  seen_from := by intro i hi; exact Or.inl hi
  closed := by intro i t hi hni; exact absurd hi hni
  frame := by intro k; exact Or.inl ⟨rfl, fun h => h⟩


/-- Full specification of the flood-fill loop: with enough fuel and a
well-formed board whose queued coordinates address non-mine tiles, the loop
succeeds and satisfies `LoopRel`. -/
lemma exposeLoop_spec (fuel : ℕ) : ∀ (b : Board) (queue : List (ℕ × ℕ)),
    WF b → (∀ p ∈ queue, qGood b p) → loopFuelLB b queue ≤ fuel →
    ∃ bf, exposeLoop fuel b queue = .ok bf ∧ LoopRel b queue bf := by
  induction fuel with
  | zero =>
    intro b queue _ _ hfuel
    rw [loopFuelLB] at hfuel
    have hq0 : queue = [] := List.length_eq_zero.mp (by omega)
    subst hq0
    exact ⟨b, rfl, LoopRel.refl b⟩
  | succ fuel ih =>
    intro b queue hwf hq hfuel
    rcases queue with _ | ⟨⟨r, c⟩, rest⟩
    · exact ⟨b, rfl, LoopRel.refl b⟩
    by_cases hidx : index_from_coord (r, c) b.columns ∈ b.seen
    · -- the index was already seen: skip it
      have hstep : exposeLoop (fuel + 1) b ((r, c) :: rest) = exposeLoop fuel b rest := by
        rw [exposeLoop, if_pos hidx]
      have hfuel' : loopFuelLB b rest ≤ fuel := by
        rw [loopFuelLB] at hfuel ⊢
        rw [List.length_cons] at hfuel
        omega
      obtain ⟨bf, heq, rel⟩ :=
        ih b rest hwf (fun p hp => hq p (List.mem_cons_of_mem _ hp)) hfuel'
      refine ⟨bf, hstep ▸ heq, ?_⟩
      exact { rel with
        queue_seen := by
          intro p hp
          rcases List.mem_cons.mp hp with rfl | hp
          · exact rel.seen_mono hidx
          · exact rel.queue_seen p hp }
    · -- a fresh index: insert it, update the tile, maybe enqueue neighbours
      obtain ⟨hlt, hmine⟩ := hq (r, c) (List.mem_cons_self _ _)
      obtain ⟨tile, htile⟩ : ∃ t, b.tiles[index_from_coord (r, c) b.columns]? = some t :=
        ⟨_, List.getElem?_eq_getElem hlt⟩
      have hmine' : tile.mine = false := by
        rw [htile] at hmine
        simpa using hmine
      have hb2 := { b with
        seen := insert (index_from_coord (r, c) b.columns) b.seen
        tiles := b.tiles.set (index_from_coord (r, c) b.columns) (exposeUpd tile) }
      set index := index_from_coord (r, c) b.columns with hindexdef
      set b2 : Board := { b with
        seen := insert index b.seen
        tiles := b.tiles.set index (exposeUpd tile) } with hb2def
      set enq : List (ℕ × ℕ) :=
        (ascList tile.adjacent_tiles).map (fun k => coord_from_index k b.columns) with henqdef
      set q2 : List (ℕ × ℕ) := if tile.adjacent_mines = 0 then rest ++ enq else rest with hq2def
      have hstep : exposeLoop (fuel + 1) b ((r, c) :: rest) = exposeLoop fuel b2 q2 := by
        rw [exposeLoop, if_neg hidx, htile]
      -- basic facts about b2
      have hb2cols : b2.columns = b.columns := rfl
      have hb2len : b2.tiles.length = b.tiles.length := by
        rw [hb2def, List.length_set]
      have hb2seen : b2.seen = insert index b.seen := rfl
      have hb2mine : ∀ j : ℕ,
          ((b2.tiles[j]?).map Tile.mine).getD false =
            ((b.tiles[j]?).map Tile.mine).getD false := by
        intro j
        rw [hb2def]
        exact @map_mine_set _ _ _ (exposeUpd tile) htile rfl j
      have hwf2 : WF b2 := by
        show WFT b2.tiles b2.rows b2.columns
        exact WFT_set hwf htile rfl rfl rfl
      -- the adjacency data of the processed tile
      obtain ⟨hsub, hzero⟩ := hwf.2 index tile htile
      -- queued coordinates of q2 are still good
      have hpres : ∀ p : ℕ × ℕ, qGood b p → qGood b2 p := by
        intro p hp
        obtain ⟨h1, h2⟩ := hp
        refine ⟨?_, ?_⟩
        · rw [hb2cols, hb2len]; exact h1
        · rw [hb2cols, hb2mine]; exact h2
      have hq2good : ∀ p ∈ q2, qGood b2 p := by
        intro p hp
        rw [hq2def] at hp
        by_cases hz : tile.adjacent_mines = 0
        · rw [if_pos hz] at hp
          rcases List.mem_append.mp hp with hp | hp
          · exact hpres p (hq p (List.mem_cons_of_mem _ hp))
          · rw [henqdef, List.mem_map] at hp
            obtain ⟨j, hj, rfl⟩ := hp
            rw [mem_ascList] at hj
            have hjlt : j < b.tiles.length := by
              have := hsub hj
              rw [Finset.mem_range] at this
              exact this
            refine hpres _ ⟨?_, ?_⟩
            · rw [index_coord_roundtrip]; exact hjlt
            · rw [index_coord_roundtrip]; exact hzero hz j hj
        · rw [if_neg hz] at hp
          exact hpres p (hq p (List.mem_cons_of_mem _ hp))
      -- fuel accounting
      have hmemsd : index ∈ Finset.range b.tiles.length \ b.seen := by
        rw [Finset.mem_sdiff, Finset.mem_range]
        exact ⟨hlt, hidx⟩
      have hcpos : 0 < (Finset.range b.tiles.length \ b.seen).card :=
        Finset.card_pos.mpr ⟨index, hmemsd⟩
      have hfuel2 : loopFuelLB b2 q2 ≤ fuel := by
        have hsd : Finset.range b2.tiles.length \ b2.seen =
            (Finset.range b.tiles.length \ b.seen).erase index := by
          rw [hb2len, hb2seen, Finset.sdiff_insert]
        have hce : (Finset.range b2.tiles.length \ b2.seen).card =
            (Finset.range b.tiles.length \ b.seen).card - 1 := by
          rw [hsd, Finset.card_erase_of_mem hmemsd]
        have henqlen : enq.length ≤ b.tiles.length := by
          rw [henqdef, List.length_map, length_ascList]
          calc tile.adjacent_tiles.card ≤ (Finset.range b.tiles.length).card :=
                Finset.card_le_card hsub
            _ = b.tiles.length := Finset.card_range _
        have hq2len : q2.length ≤ rest.length + b.tiles.length := by
          rw [hq2def]
          by_cases hz : tile.adjacent_mines = 0
          · rw [if_pos hz, List.length_append]; omega
          · rw [if_neg hz]; omega
        rw [loopFuelLB] at hfuel ⊢
        rw [List.length_cons] at hfuel
        rw [hce, hb2len]
        have hC1 : (Finset.range b.tiles.length \ b.seen).card =
            (Finset.range b.tiles.length \ b.seen).card - 1 + 1 := by omega
        have hCL : (Finset.range b.tiles.length \ b.seen).card * (b.tiles.length + 1) =
            ((Finset.range b.tiles.length \ b.seen).card - 1) * (b.tiles.length + 1) +
              (b.tiles.length + 1) := by
          calc (Finset.range b.tiles.length \ b.seen).card * (b.tiles.length + 1)
              = ((Finset.range b.tiles.length \ b.seen).card - 1 + 1) *
                  (b.tiles.length + 1) := by rw [← hC1]
            _ = ((Finset.range b.tiles.length \ b.seen).card - 1) * (b.tiles.length + 1) +
                  (b.tiles.length + 1) := by ring
        omega
      obtain ⟨bf, heq, rel2⟩ := ih b2 q2 hwf2 hq2good hfuel2
      refine ⟨bf, hstep ▸ heq, ?_⟩
      -- compose `rel2 : LoopRel b2 q2 bf` with the single step from b to b2
      have hb2tiles_ne : ∀ k : ℕ, k ≠ index → b2.tiles[k]? = b.tiles[k]? := by
        intro k hk
        rw [hb2def]
        exact List.getElem?_set_ne (fun h => hk h.symm)
      have hb2tiles_eq : b2.tiles[index]? = some (exposeUpd tile) := by
        rw [hb2def]
        exact List.getElem?_set_eq hlt
      refine
        { rows_eq := rel2.rows_eq
          columns_eq := rel2.columns_eq
          mines_eq := rel2.mines_eq
          fc_eq := rel2.fc_eq
          cfm_eq := rel2.cfm_eq
          len_eq := by rw [rel2.len_eq, hb2len]
          seen_mono := ?_
          queue_seen := ?_
          seen_from := ?_
          closed := ?_
          frame := ?_ }
      · intro i hi
        exact rel2.seen_mono (by rw [hb2seen]; exact Finset.mem_insert_of_mem hi)
      · intro p hp
        rcases List.mem_cons.mp hp with rfl | hp
        · exact rel2.seen_mono (by rw [hb2seen]; exact Finset.mem_insert_self _ _)
        · -- p ∈ rest, and rest ⊆ q2 in both branches
          have hpq2 : p ∈ q2 := by
            rw [hq2def]
            by_cases hz : tile.adjacent_mines = 0
            · rw [if_pos hz]; exact List.mem_append_left _ hp
            · rw [if_neg hz]; exact hp
          exact rel2.queue_seen p hpq2
      · intro i hi
        rcases rel2.seen_from i hi with h | h
        · rw [hb2seen] at h
          rcases Finset.mem_insert.mp h with rfl | h
          · exact Or.inr ⟨hlt, by rw [htile]; simpa using hmine'⟩
          · exact Or.inl h
        · obtain ⟨h1, h2⟩ := h
          rw [hb2len] at h1
          rw [hb2mine] at h2
          exact Or.inr ⟨h1, h2⟩
      · intro i t hi hni ht hz0 j hj
        rcases eq_or_ne i index with rfl | hne
        · -- the freshly processed tile: its neighbours are exactly enq
          have ht' : t = tile := by
            rw [htile] at ht
            injection ht with h
            exact h.symm
          subst ht'
          have hq2eq : q2 = rest ++ enq := by
            rw [hq2def, if_pos hz0]
          have hpenq : coord_from_index j b.columns ∈ enq := by
            rw [henqdef, List.mem_map]
            exact ⟨j, mem_ascList.mpr hj, rfl⟩
          have := rel2.queue_seen (coord_from_index j b.columns)
            (by rw [hq2eq]; exact List.mem_append_right _ hpenq)
          rw [hb2cols, index_coord_roundtrip] at this
          exact this
        · have hnib2 : i ∉ b2.seen := by
            rw [hb2seen]
            intro hmem
            rcases Finset.mem_insert.mp hmem with h | h
            · exact hne h
            · exact hni h
          exact rel2.closed i t hi hnib2 (by rw [hb2tiles_ne i hne]; exact ht) hz0 j hj
      · intro k
        rcases eq_or_ne k index with rfl | hne
        · -- k is the freshly processed index
          rcases rel2.frame index with ⟨heqk, _⟩ | ⟨_, hnk, _⟩
          · refine Or.inr ⟨?_, hidx, ?_⟩
            · exact rel2.seen_mono (by rw [hb2seen]; exact Finset.mem_insert_self _ _)
            · rw [heqk, hb2tiles_eq, htile]
              rfl
          · exact absurd (by rw [hb2seen]; exact Finset.mem_insert_self _ _) hnk
        · rcases rel2.frame k with ⟨heqk, himp⟩ | ⟨hk1, hk2, heqk⟩
          · refine Or.inl ⟨by rw [heqk, hb2tiles_ne k hne], ?_⟩
            intro hk
            have := himp hk
            rw [hb2seen] at this
            rcases Finset.mem_insert.mp this with h | h
            · exact absurd h hne
            · exact h
          · refine Or.inr ⟨hk1, ?_, by rw [heqk, hb2tiles_ne k hne]⟩
            intro hk
            exact hk2 (by rw [hb2seen]; exact Finset.mem_insert_of_mem hk)

/-! ## Branch equations for `Board.expose` and `Board.flag` -/

lemma expose_none {b : Board} {r c : ℕ}
    (h : b.tiles[index_from_coord (r, c) b.columns]? = none) :
    b.expose (r, c) = .error (Error.GetTile (r, c)) := by
  rw [Board.expose, Board.tile]
  simp only [h]
  rfl

lemma expose_mine {b : Board} {r c : ℕ} {t : Tile}
    (h : b.tiles[index_from_coord (r, c) b.columns]? = some t) (hm : t.mine = true) :
    b.expose (r, c) = .ok ({ b with
      tiles := b.tiles.set (index_from_coord (r, c) b.columns)
        ({ t with exposed := true }) }, true) := by
  rw [Board.expose, Board.tile]
  simp only [h, bind, Except.bind, hm, if_true]
  rw [Board.modifyTile]
  simp only [h, hm]
  rfl

lemma expose_not_mine {b : Board} {r c : ℕ} {t : Tile}
    (h : b.tiles[index_from_coord (r, c) b.columns]? = some t) (hm : t.mine = false) :
    b.expose (r, c) = (exposeLoop (exposeFuel b) b [(r, c)]).map (fun b1 => (b1, false)) := by
  rw [Board.expose, Board.tile]
  simp only [h, bind, Except.bind, hm, Bool.false_eq_true, if_false]
  cases hl : exposeLoop (exposeFuel b) b [(r, c)] <;> rfl

lemma flag_none {b : Board} {i j : ℕ}
    (h : b.tiles[index_from_coord (i, j) b.columns]? = none) :
    b.flag i j = .error (Error.GetTile (i, j)) := by
  rw [Board.flag, Board.tile]
  simp only [h]
  rfl

lemma flag_was_flagged {b : Board} {i j : ℕ} {t : Tile}
    (h : b.tiles[index_from_coord (i, j) b.columns]? = some t) (hf : t.flagged = true) :
    b.flag i j = .ok ({ b with
      correctly_flagged_mines := b.correctly_flagged_mines
      flagged_cells := b.flagged_cells - 1
      tiles := b.tiles.set (index_from_coord (i, j) b.columns)
        ({ t with flagged := false }) }, false) := by
  rw [Board.flag, Board.tile]
  simp only [h, bind, Except.bind, hf, Bool.not_true, Bool.false_and, if_true]
  rw [Board.modifyTile]
  simp only [h, hf]
  rfl

lemma flag_fresh {b : Board} {i j : ℕ} {t : Tile}
    (h : b.tiles[index_from_coord (i, j) b.columns]? = some t) (hf : t.flagged = false)
    (hbudget : (decide (b.flagged_cells < b.mines) && !t.exposed) = true) :
    b.flag i j = .ok ({ b with
      correctly_flagged_mines := b.correctly_flagged_mines + (if t.mine then 1 else 0)
      flagged_cells := b.flagged_cells + 1
      tiles := b.tiles.set (index_from_coord (i, j) b.columns)
        ({ t with flagged := true }) }, true) := by
  rw [Board.flag, Board.tile]
  simp only [h, bind, Except.bind, hf, Bool.not_false, Bool.true_and, Bool.false_eq_true,
    if_false, hbudget, if_true]
  rw [Board.modifyTile]
  simp only [h, hf]
  rfl

lemma flag_rejected {b : Board} {i j : ℕ} {t : Tile}
    (h : b.tiles[index_from_coord (i, j) b.columns]? = some t) (hf : t.flagged = false)
    (hbudget : (decide (b.flagged_cells < b.mines) && !t.exposed) = false) :
    b.flag i j = .ok ({ b with
      correctly_flagged_mines := b.correctly_flagged_mines + (if t.mine then 1 else 0) },
      true) := by
  rw [Board.flag, Board.tile]
  simp only [h, bind, Except.bind, hf, Bool.not_false, Bool.true_and, Bool.false_eq_true,
    if_false, hbudget]
  rfl

/-! ## Preservation of well-formedness and the seen-set invariant -/


lemma SMF_newBoard (rows columns mines : ℕ) (samples : Finset ℕ) :
    SMF (newBoard rows columns mines samples) := by
  intro i hi
  exact absurd hi (Finset.not_mem_empty i)

lemma loopFuelLB_single (b : Board) (p : ℕ × ℕ) : loopFuelLB b [p] ≤ exposeFuel b := by
  rw [loopFuelLB, exposeFuel]
  have hcard : (Finset.range b.tiles.length \ b.seen).card ≤ b.tiles.length := by
    calc (Finset.range b.tiles.length \ b.seen).card
        ≤ (Finset.range b.tiles.length).card := Finset.card_le_card (Finset.sdiff_subset)
      _ = b.tiles.length := Finset.card_range _
  have := Nat.mul_le_mul_right (b.tiles.length + 1) hcard
  simp only [List.length_cons, List.length_nil]
  omega

lemma mine_view_exposeUpd (o : Option Tile) :
    ((o.map exposeUpd).map Tile.mine).getD false = (o.map Tile.mine).getD false := by
  cases o <;> rfl

/-- A board whose tiles agree with a well-formed board's up to `exposeUpd`
rewrites is well-formed. -/
lemma WF_of_frame {b bf : Board} (hwf : WF b) (hrows : bf.rows = b.rows)
    (hcols : bf.columns = b.columns) (hlen : bf.tiles.length = b.tiles.length)
    (hframe : ∀ k : ℕ, bf.tiles[k]? = b.tiles[k]? ∨
      bf.tiles[k]? = (b.tiles[k]?).map exposeUpd) :
    WF bf := by
  have hview : ∀ j : ℕ,
      ((bf.tiles[j]?).map Tile.mine).getD false =
        ((b.tiles[j]?).map Tile.mine).getD false := by
    intro j
    rcases hframe j with h | h
    · rw [h]
    · rw [h, mine_view_exposeUpd]
  constructor
  · rw [hlen, hrows, hcols]; exact hwf.1
  · intro k t ht
    have hbase : ∃ u : Tile, b.tiles[k]? = some u ∧ u.adjacent_tiles = t.adjacent_tiles ∧
        u.adjacent_mines = t.adjacent_mines := by
      rcases hframe k with h | h
      · exact ⟨t, by rw [← h, ht], rfl, rfl⟩
      · rw [h] at ht
        rcases Option.map_eq_some'.mp ht with ⟨u, hu, hut⟩
        exact ⟨u, hu, by rw [← hut]; rfl, by rw [← hut]; rfl⟩
    obtain ⟨u, hu, hadj, hmn⟩ := hbase
    obtain ⟨hsub, hz⟩ := hwf.2 k u hu
    constructor
    · rw [hlen, ← hadj]; exact hsub
    · intro hm0 j hj
      rw [hview]
      rw [← hadj] at hj
      exact hz (by rw [hmn]; exact hm0) j hj

/-- Everything a successful `expose` preserves or guarantees. -/
lemma expose_ok_preserves {b b' : Board} {p : ℕ × ℕ} {hit : Bool} (hwf : WF b)
    (h : b.expose p = .ok (b', hit)) :
    WF b' ∧ b'.rows = b.rows ∧ b'.columns = b.columns ∧ b'.mines = b.mines ∧
    b'.flagged_cells = b.flagged_cells ∧
    b'.correctly_flagged_mines = b.correctly_flagged_mines ∧
    b'.tiles.length = b.tiles.length ∧ b.seen ⊆ b'.seen ∧
    (∀ i ∈ b'.seen, i ∈ b.seen ∨
      (i < b.tiles.length ∧ ((b.tiles[i]?).map Tile.mine).getD false = false)) ∧
    (∀ j : ℕ, ((b'.tiles[j]?).map Tile.mine).getD false =
      ((b.tiles[j]?).map Tile.mine).getD false) := by
  rcases p with ⟨r, c⟩
  cases hte : b.tiles[index_from_coord (r, c) b.columns]? with
  | none =>
    rw [expose_none hte] at h
    exact Except.noConfusion h
  | some t =>
    cases hmt : t.mine with
    | true =>
      rw [expose_mine hte hmt] at h
      have hb' : b' = { b with
          tiles := b.tiles.set (index_from_coord (r, c) b.columns)
            ({ t with exposed := true }) } := by
        injection h with h1
        injection h1 with h2 h3
        exact h2.symm
      subst hb'
      have hlen : ({ b with
          tiles := b.tiles.set (index_from_coord (r, c) b.columns)
            ({ t with exposed := true }) } : Board).tiles.length = b.tiles.length := by
        simp only [List.length_set]
      refine ⟨?_, rfl, rfl, rfl, rfl, rfl, hlen, Finset.Subset.refl _,
        fun i hi => Or.inl hi, ?_⟩
      · exact WFT_set hwf hte rfl rfl rfl
      · intro j
        exact @map_mine_set _ _ _ ({ t with exposed := true }) hte rfl j
    | false =>
      rw [expose_not_mine hte hmt] at h
      have hq : ∀ q ∈ [(r, c)], qGood b q := by
        intro q hq
        rcases List.mem_cons.mp hq with rfl | hq
        · refine ⟨?_, ?_⟩
          · by_contra hlt
            rw [List.getElem?_eq_none (by omega)] at hte
            exact Option.noConfusion hte
          · rw [hte]
            simpa using hmt
        · exact absurd hq (List.not_mem_nil q)
      obtain ⟨bf, heq, rel⟩ := exposeLoop_spec (exposeFuel b) b [(r, c)] hwf hq
        (loopFuelLB_single b (r, c))
      rw [heq] at h
      have hb' : b' = bf := by
        injection h with h1
        injection h1 with h2 h3
        exact h2.symm
      subst hb'
      have hframe : ∀ k : ℕ, b'.tiles[k]? = b.tiles[k]? ∨
          b'.tiles[k]? = (b.tiles[k]?).map exposeUpd := by
        intro k
        rcases rel.frame k with ⟨h1, _⟩ | ⟨_, _, h1⟩
        · exact Or.inl h1
        · exact Or.inr h1
      have hview : ∀ j : ℕ,
          ((b'.tiles[j]?).map Tile.mine).getD false =
            ((b.tiles[j]?).map Tile.mine).getD false := by
        intro j
        rcases hframe j with h1 | h1
        · rw [h1]
        · rw [h1, mine_view_exposeUpd]
      exact ⟨WF_of_frame hwf rel.rows_eq rel.columns_eq rel.len_eq hframe,
        rel.rows_eq, rel.columns_eq, rel.mines_eq, rel.fc_eq, rel.cfm_eq, rel.len_eq,
        rel.seen_mono, rel.seen_from, hview⟩

/-- Everything a successful `flag` preserves. -/
lemma flag_ok_preserves {b b' : Board} {i j : ℕ} {res : Bool} (hwf : WF b)
    (h : b.flag i j = .ok (b', res)) :
    WF b' ∧ b'.rows = b.rows ∧ b'.columns = b.columns ∧ b'.mines = b.mines ∧
    b'.tiles.length = b.tiles.length ∧ b'.seen = b.seen ∧
    (∀ k : ℕ, ((b'.tiles[k]?).map Tile.mine).getD false =
      ((b.tiles[k]?).map Tile.mine).getD false) := by
  cases hte : b.tiles[index_from_coord (i, j) b.columns]? with
  | none =>
    rw [flag_none hte] at h
    exact Except.noConfusion h
  | some t =>
    cases htf : t.flagged with
    | true =>
      rw [flag_was_flagged hte htf] at h
      have hb' : b' = { b with
          correctly_flagged_mines := b.correctly_flagged_mines
          flagged_cells := b.flagged_cells - 1
          tiles := b.tiles.set (index_from_coord (i, j) b.columns)
            ({ t with flagged := false }) } := by
        injection h with h1
        injection h1 with h2 h3
        exact h2.symm
      subst hb'
      refine ⟨?_, rfl, rfl, rfl, by simp only [List.length_set], rfl, ?_⟩
      · exact WFT_set hwf hte rfl rfl rfl
      · intro k
        exact @map_mine_set _ _ _ ({ t with flagged := false }) hte rfl k
    | false =>
      cases hbudget : (decide (b.flagged_cells < b.mines) && !t.exposed) with
      | true =>
        rw [flag_fresh hte htf hbudget] at h
        have hb' : b' = { b with
            correctly_flagged_mines :=
              b.correctly_flagged_mines + (if t.mine then 1 else 0)
            flagged_cells := b.flagged_cells + 1
            tiles := b.tiles.set (index_from_coord (i, j) b.columns)
              ({ t with flagged := true }) } := by
          injection h with h1
          injection h1 with h2 h3
          exact h2.symm
        subst hb'
        refine ⟨?_, rfl, rfl, rfl, by simp only [List.length_set], rfl, ?_⟩
        · exact WFT_set hwf hte rfl rfl rfl
        · intro k
          exact @map_mine_set _ _ _ ({ t with flagged := true }) hte rfl k
      | false =>
        rw [flag_rejected hte htf hbudget] at h
        have hb' : b' = { b with
            correctly_flagged_mines :=
              b.correctly_flagged_mines + (if t.mine then 1 else 0) } := by
          injection h with h1
          injection h1 with h2 h3
          exact h2.symm
        subst hb'
        exact ⟨hwf, rfl, rfl, rfl, rfl, rfl, fun k => rfl⟩

lemma expose_WF_SMF {b b' : Board} {p : ℕ × ℕ} {hit : Bool} (hwf : WF b) (hsmf : SMF b)
    (h : b.expose p = .ok (b', hit)) : WF b' ∧ SMF b' := by
  obtain ⟨hwf', _, _, _, _, _, hlen, _, hfrom, hview⟩ := expose_ok_preserves hwf h
  refine ⟨hwf', ?_⟩
  intro i hi
  rcases hfrom i hi with hold | ⟨h1, h2⟩
  · obtain ⟨h1, h2⟩ := hsmf i hold
    exact ⟨by rw [hlen]; exact h1, by rw [hview]; exact h2⟩
  · exact ⟨by rw [hlen]; exact h1, by rw [hview]; exact h2⟩

lemma flag_WF_SMF {b b' : Board} {i j : ℕ} {res : Bool} (hwf : WF b) (hsmf : SMF b)
    (h : b.flag i j = .ok (b', res)) : WF b' ∧ SMF b' := by
  obtain ⟨hwf', _, _, _, hlen, hseen, hview⟩ := flag_ok_preserves hwf h
  refine ⟨hwf', ?_⟩
  intro k hk
  rw [hseen] at hk
  obtain ⟨h1, h2⟩ := hsmf k hk
  exact ⟨by rw [hlen]; exact h1, by rw [hview]; exact h2⟩

lemma foldExpose_WF_SMF (C : ℕ) : ∀ (l : List ℕ) (acc b' : Board), WF acc → SMF acc →
    (l.foldlM (fun acc2 i => do
      let r ← acc2.expose (coord_from_index i C)
      pure r.1) acc) = .ok b' → WF b' ∧ SMF b' := by
  intro l
  induction l with
  | nil =>
    intro acc b' hwf hsmf h
    have : acc = b' := by
      injection h with h1
    subst this
    exact ⟨hwf, hsmf⟩
  | cons x xs ih =>
    intro acc b' hwf hsmf h
    rw [List.foldlM_cons] at h
    cases hstep : acc.expose (coord_from_index x C) with
    | error e =>
      rw [hstep] at h
      exact Except.noConfusion h
    | ok rp =>
      rw [hstep] at h
      obtain ⟨hwf1, hsmf1⟩ := expose_WF_SMF hwf hsmf
        (show acc.expose (coord_from_index x C) = .ok (rp.1, rp.2) from by
          rw [hstep])
      exact ih rp.1 b' hwf1 hsmf1 h

lemma expose_all_WF_SMF {b b' : Board} (hwf : WF b) (hsmf : SMF b)
    (h : b.expose_all = .ok b') : WF b' ∧ SMF b' := by
  rw [Board.expose_all] at h
  exact foldExpose_WF_SMF b.columns (List.range b.tiles.length) b b' hwf hsmf h

/-- Every reachable board is well-formed and satisfies the seen-set
invariant. -/
lemma Reachable_WF_SMF {b : Board} (h : Reachable b) : WF b ∧ SMF b := by
  induction h with
  | base hnew hsub hcard =>
    rename_i rows columns mines samples b'
    have hb : b' = newBoard rows columns mines samples := by
      rw [Board.new] at hnew
      injection hnew with h1
      exact h1.symm
    subst hb
    exact ⟨WF_newBoard _ _ _ _, SMF_newBoard _ _ _ _⟩
  | expose_step _ hstep ih => exact expose_WF_SMF ih.1 ih.2 hstep
  | expose_all_step _ hstep ih => exact expose_all_WF_SMF ih.1 ih.2 hstep
  | flag_step _ hstep ih => exact flag_WF_SMF ih.1 ih.2 hstep

/-! ## Grid connectivity and flood-fill completeness -/

lemma grid_connect (rows columns : ℕ) (S : Finset ℕ)
    (hstep : ∀ a b : ℕ, a < rows → b < columns → a * columns + b ∈ S →
      ∀ j ∈ specNeighbors a b rows columns, j ∈ S) :
    ∀ (d a b a' b' : ℕ), a < rows → b < columns → a' < rows → b' < columns →
      a * columns + b ∈ S →
      a - a' ≤ d → a' - a ≤ d → b - b' ≤ d → b' - b ≤ d →
      a' * columns + b' ∈ S := by
  intro d
  induction d with
  | zero =>
    intro a b a' b' ha hb ha' hb' hmem h1 h2 h3 h4
    have heq : a = a' ∧ b = b' := by omega
    obtain ⟨rfl, rfl⟩ := heq
    exact hmem
  | succ d ih =>
    intro a b a' b' ha hb ha' hb' hmem h1 h2 h3 h4
    by_cases heq : a = a' ∧ b = b'
    · obtain ⟨rfl, rfl⟩ := heq
      exact hmem
    · rw [not_and_or] at heq
      set a1 := if a < a' then a + 1 else if a' < a then a - 1 else a with ha1
      set b1 := if b < b' then b + 1 else if b' < b then b - 1 else b with hb1
      have ha1lt : a1 < rows := by rw [ha1]; split_ifs <;> omega
      have hb1lt : b1 < columns := by rw [hb1]; split_ifs <;> omega
      have hcheb : chebDist a b a1 b1 = 1 := by
        rw [chebDist_eq_one_iff, ha1, hb1]
        split_ifs <;> omega
      have hmem1 : a1 * columns + b1 ∈ S := by
        apply hstep a b ha hb hmem
        rw [mem_specNeighbors]
        exact ⟨a1, b1, ha1lt, hb1lt, hcheb, rfl⟩
      refine ih a1 b1 a' b' ha1lt hb1lt ha' hb' hmem1 ?_ ?_ ?_ ?_ <;>
        (first
          | (rw [ha1]; split_ifs <;> omega)
          | (rw [hb1]; split_ifs <;> omega))

lemma mkTile_empty_fields (rows columns i : ℕ) (p : ℕ × ℕ) :
    (mkTile rows columns ∅ i p).adjacent_mines = 0 ∧
    (mkTile rows columns ∅ i p).mine = false ∧
    (mkTile rows columns ∅ i p).flagged = false := by
  refine ⟨?_, ?_, rfl⟩
  · simp [mkTile]
  · simp [mkTile]

/-- C7: on a freshly constructed board with zero mines, a single `expose` at
any in-bounds coordinate exposes every tile of the board (and reports no mine
hit).  The hypothesis `samples.card = 0` is the sampler's contract for
`mines = 0`. -/
theorem C7_flood_fill_completeness {rows columns r c : ℕ} {samples : Finset ℕ} {b : Board}
    (hnew : Board.new rows columns 0 samples = .ok b) (hs : samples.card = 0)
    (hr : r < rows) (hc : c < columns) :
    (b.expose (r, c)).map (fun x => (x.1.tiles.all (fun t => t.exposed), x.2)) =
      .ok (true, false) := by
  have hse : samples = ∅ := Finset.card_eq_zero.mp hs
  subst hse
  have hb : b = newBoard rows columns 0 ∅ := by
    rw [Board.new] at hnew
    injection hnew with h1
    exact h1.symm
  subst hb
  have hcols0 : 0 < columns := by omega
  have hidxlt : r * columns + c < rows * columns := by
    calc r * columns + c < r * columns + columns := by omega
      _ = (r + 1) * columns := by ring
      _ ≤ rows * columns := Nat.mul_le_mul_right _ hr
  have htile : (newBoard rows columns 0 ∅).tiles[r * columns + c]? =
      some (mkTile rows columns ∅ (r * columns + c)
        ((r * columns + c) / columns, (r * columns + c) % columns)) :=
    newBoard_tiles_getElem? hidxlt
  have hmine0 : (mkTile rows columns ∅ (r * columns + c)
      ((r * columns + c) / columns, (r * columns + c) % columns)).mine = false :=
    (mkTile_empty_fields _ _ _ _).2.1
  rw [expose_not_mine htile hmine0]
  have hq : ∀ q ∈ [(r, c)], qGood (newBoard rows columns 0 ∅) q := by
    intro q hmem
    rcases List.mem_cons.mp hmem with rfl | hmem
    · refine ⟨?_, ?_⟩
      · show r * columns + c < _
        rw [newBoard_tiles_length]
        exact hidxlt
      · show ((_ : List Tile)[r * columns + c]?.map Tile.mine).getD false = false
        rw [htile]
        simp only [Option.map_some', Option.getD_some]
        exact hmine0
    · exact absurd hmem (List.not_mem_nil q)
  obtain ⟨bf, heq, rel⟩ := exposeLoop_spec (exposeFuel (newBoard rows columns 0 ∅))
    (newBoard rows columns 0 ∅) [(r, c)] (WF_newBoard _ _ _ _) hq
    (loopFuelLB_single _ _)
  rw [heq]
  have hlenB := newBoard_tiles_length rows columns 0 (∅ : Finset ℕ)
  -- every in-range index ends up in the final seen set
  have hstep : ∀ a b2 : ℕ, a < rows → b2 < columns → a * columns + b2 ∈ bf.seen →
      ∀ j ∈ specNeighbors a b2 rows columns, j ∈ bf.seen := by
    intro a b2 ha hb2 hmem j hj
    have hablt : a * columns + b2 < rows * columns := by
      calc a * columns + b2 < a * columns + columns := by omega
        _ = (a + 1) * columns := by ring
        _ ≤ rows * columns := Nat.mul_le_mul_right _ ha
    have hdiv : (a * columns + b2) / columns = a := by
      rw [Nat.mul_comm a columns, Nat.mul_add_div hcols0, Nat.div_eq_of_lt hb2, Nat.add_zero]
    have hmod : (a * columns + b2) % columns = b2 := by
      rw [Nat.mul_comm a columns, Nat.mul_add_mod, Nat.mod_eq_of_lt hb2]
    have htb : (newBoard rows columns 0 ∅).tiles[a * columns + b2]? =
        some (mkTile rows columns ∅ (a * columns + b2) (a, b2)) := by
      rw [newBoard_tiles_getElem? hablt, hdiv, hmod]
    refine rel.closed (a * columns + b2) _ hmem (Finset.not_mem_empty _) htb
      (mkTile_empty_fields _ _ _ _).1 j ?_
    rw [mkTile]
    show j ∈ (adjacent (a, b2) rows columns).toFinset
    rw [adjacent_toFinset_eq ha hb2]
    exact hj
  have hseed : r * columns + c ∈ bf.seen :=
    rel.queue_seen (r, c) (List.mem_cons_self _ _)
  have hallseen : ∀ k : ℕ, k < rows * columns → k ∈ bf.seen := by
    intro k hk
    have hkd : k / columns < rows := Nat.div_lt_of_lt_mul (by rw [Nat.mul_comm]; exact hk)
    have hkm : k % columns < columns := Nat.mod_lt _ hcols0
    have := grid_connect rows columns bf.seen hstep (rows + columns) r c
      (k / columns) (k % columns) hr hc hkd hkm hseed
      (le_trans (Nat.sub_le r (k / columns)) (by omega))
      (le_trans (Nat.sub_le (k / columns) r) (by omega))
      (le_trans (Nat.sub_le c (k % columns)) (by omega))
      (le_trans (Nat.sub_le (k % columns) c) (by omega))
    rw [Nat.div_add_mod'] at this
    exact this
  -- hence every tile is exposed
  have hall : bf.tiles.all (fun t => t.exposed) = true := by
    rw [List.all_eq_true]
    intro t ht
    obtain ⟨k, hk, hkt⟩ := List.getElem_of_mem ht
    have hk2 : k < rows * columns := by
      rw [rel.len_eq, hlenB] at hk
      exact hk
    have hkseen : k ∈ bf.seen := hallseen k hk2
    rcases rel.frame k with ⟨_, himp⟩ | ⟨_, _, hmap⟩
    · exact absurd (himp hkseen) (Finset.not_mem_empty k)
    · have hbt : bf.tiles[k]? =
          some (exposeUpd (mkTile rows columns ∅ k (k / columns, k % columns))) := by
        rw [hmap, newBoard_tiles_getElem? hk2]
        rfl
      have hbt2 : bf.tiles[k]? = some t := by
        rw [List.getElem?_eq_getElem hk, hkt]
      rw [hbt2] at hbt
      have ht' : t = exposeUpd (mkTile rows columns ∅ k (k / columns, k % columns)) := by
        injection hbt with h1
      obtain ⟨hm1, hm2, hm3⟩ := mkTile_empty_fields rows columns k (k / columns, k % columns)
      rw [ht', exposeUpd, hm2, hm3]
      rfl
  show Except.ok (bf.tiles.all (fun t => t.exposed), false) = Except.ok (true, false)
  rw [hall]

/-! ## Small projection lemmas for freshly built boards -/

lemma newBoard_rows (rows columns mines : ℕ) (samples : Finset ℕ) :
    (newBoard rows columns mines samples).rows = rows := rfl

lemma newBoard_columns (rows columns mines : ℕ) (samples : Finset ℕ) :
    (newBoard rows columns mines samples).columns = columns := rfl

/-! ## The claims -/

/-- C8: on every constructed board, each tile's `adjacent_tiles` is exactly
the set of linear indices of its in-bounds 8-connectivity neighbours
(Chebyshev distance 1, no self, no wraparound), and `adjacent_mines` is the
number of mine tiles in that set, a value of at most 8. -/
theorem C8_adjacency_correct {rows columns mines : ℕ} {samples : Finset ℕ} {b : Board}
    (hnew : Board.new rows columns mines samples = .ok b) :
    ∀ (k : ℕ) (t : Tile), b.tiles[k]? = some t →
      t.adjacent_tiles = specNeighbors (k / b.columns) (k % b.columns) b.rows b.columns ∧
      t.adjacent_mines = (t.adjacent_tiles.filter
        (fun j => ((b.tiles[j]?).map Tile.mine).getD false = true)).card ∧
      t.adjacent_mines ≤ 8 := by
  have hb : b = newBoard rows columns mines samples := by
    rw [Board.new] at hnew
    injection hnew with h1
    exact h1.symm
  subst hb
  intro k t ht
  rw [newBoard_rows, newBoard_columns]
  have hk : k < rows * columns := by
    by_contra hk
    rw [List.getElem?_eq_none (by rw [newBoard_tiles_length]; omega)] at ht
    exact Option.noConfusion ht
  have hcols0 : 0 < columns := by
    rcases Nat.eq_zero_or_pos columns with h | h
    · rw [h, Nat.mul_zero] at hk
      omega
    · exact h
  have hkd : k / columns < rows := Nat.div_lt_of_lt_mul (by rw [Nat.mul_comm]; exact hk)
  have hkm : k % columns < columns := Nat.mod_lt _ hcols0
  rw [newBoard_tiles_getElem? hk] at ht
  have ht' : t = mkTile rows columns samples k (k / columns, k % columns) := by
    injection ht with h1
    exact h1.symm
  subst ht'
  have hadj : (mkTile rows columns samples k (k / columns, k % columns)).adjacent_tiles =
      specNeighbors (k / columns) (k % columns) rows columns := by
    show (adjacent (k / columns, k % columns) rows columns).toFinset = _
    exact adjacent_toFinset_eq hkd hkm
  refine ⟨hadj, ?_, ?_⟩
  · rw [mkTile_adjacent_mines_eq]
    congr 1
    apply Finset.filter_congr
    intro j hj
    have hjlt : j < rows * columns := by
      rw [hadj, mem_specNeighbors] at hj
      obtain ⟨a, b2, ha, hb2, _, rfl⟩ := hj
      calc a * columns + b2 < a * columns + columns := by omega
        _ = (a + 1) * columns := by ring
        _ ≤ rows * columns := Nat.mul_le_mul_right _ ha
    rw [newBoard_tiles_getElem? hjlt]
    simp [mkTile]
  · rw [mkTile_adjacent_mines_eq]
    calc ((mkTile rows columns samples k (k / columns, k % columns)).adjacent_tiles.filter
          (· ∈ samples)).card
        ≤ (mkTile rows columns samples k (k / columns, k % columns)).adjacent_tiles.card :=
          Finset.card_filter_le _ _
      _ ≤ 8 := by
          rw [hadj]
          exact card_specNeighbors_le _ _ _ _

/-- C8 witness: the bottom-right tile of a 2-by-2 board with a mine at index 0
has the spec's neighbour set and mine count. -/
theorem C8_adjacency_correct_witness :
    ((newBoard 2 2 1 {0}).tiles[3]? = some (mkTile 2 2 {0} 3 (3 / 2, 3 % 2))) ∧
    ((mkTile 2 2 {0} 3 (3 / 2, 3 % 2)).adjacent_tiles =
        specNeighbors (3 / (newBoard 2 2 1 {0}).columns) (3 % (newBoard 2 2 1 {0}).columns)
          (newBoard 2 2 1 {0}).rows (newBoard 2 2 1 {0}).columns ∧
      (mkTile 2 2 {0} 3 (3 / 2, 3 % 2)).adjacent_mines =
        ((mkTile 2 2 {0} 3 (3 / 2, 3 % 2)).adjacent_tiles.filter
          (fun j => (((newBoard 2 2 1 {0}).tiles[j]?).map Tile.mine).getD false = true)).card ∧
      (mkTile 2 2 {0} 3 (3 / 2, 3 % 2)).adjacent_mines ≤ 8) :=
  ⟨by decide, C8_adjacency_correct rfl 3 (mkTile 2 2 {0} 3 (3 / 2, 3 % 2)) (by decide)⟩

/-- C9: exposing an in-bounds mine tile returns `hit = true`, sets `exposed`
on that tile only, and changes nothing else — no other tile, `seen`,
`flagged_cells` or `correctly_flagged_mines` (no flood fill happens). -/
theorem C9_expose_mine_frame {b : Board} {r c : ℕ} {t : Tile}
    (h : b.tiles[index_from_coord (r, c) b.columns]? = some t) (hm : t.mine = true) :
    ∃ b' : Board, b.expose (r, c) = .ok (b', true) ∧
      b'.tiles[index_from_coord (r, c) b.columns]? = some ({ t with exposed := true }) ∧
      (∀ k : ℕ, k ≠ index_from_coord (r, c) b.columns → b'.tiles[k]? = b.tiles[k]?) ∧
      b'.seen = b.seen ∧ b'.flagged_cells = b.flagged_cells ∧
      b'.correctly_flagged_mines = b.correctly_flagged_mines ∧
      b'.rows = b.rows ∧ b'.columns = b.columns ∧ b'.mines = b.mines := by
  have hlt : index_from_coord (r, c) b.columns < b.tiles.length := by
    by_contra hlt
    rw [List.getElem?_eq_none (by omega)] at h
    exact Option.noConfusion h
  refine ⟨_, expose_mine h hm, ?_, ?_, rfl, rfl, rfl, rfl, rfl, rfl⟩
  · show (b.tiles.set (index_from_coord (r, c) b.columns) _)[_]? = _
    rw [List.getElem?_set_eq hlt]
  · intro k hk
    show (b.tiles.set (index_from_coord (r, c) b.columns) _)[k]? = _
    exact List.getElem?_set_ne (fun hh => hk hh.symm)

/-- C9 witness: hitting the single mine of a 1-by-1 board. -/
theorem C9_expose_mine_frame_witness :
    ∃ b' : Board, (newBoard 1 1 1 {0}).expose (0, 0) = .ok (b', true) ∧
      b'.tiles[index_from_coord (0, 0) (newBoard 1 1 1 {0}).columns]? =
        some ({ mkTile 1 1 {0} 0 (0, 0) with exposed := true }) ∧
      (∀ k : ℕ, k ≠ index_from_coord (0, 0) (newBoard 1 1 1 {0}).columns →
        b'.tiles[k]? = (newBoard 1 1 1 {0}).tiles[k]?) ∧
      b'.seen = (newBoard 1 1 1 {0}).seen ∧
      b'.flagged_cells = (newBoard 1 1 1 {0}).flagged_cells ∧
      b'.correctly_flagged_mines = (newBoard 1 1 1 {0}).correctly_flagged_mines ∧
      b'.rows = (newBoard 1 1 1 {0}).rows ∧ b'.columns = (newBoard 1 1 1 {0}).columns ∧
      b'.mines = (newBoard 1 1 1 {0}).mines :=
  @C9_expose_mine_frame (newBoard 1 1 1 {0}) 0 0 (mkTile 1 1 {0} 0 (0, 0))
    (by decide) (by decide)

/-- C10: in every reachable board state, `seen` contains only indices of real
non-mine tiles: a mine index never enters `seen`. -/
theorem C10_seen_only_safe {b : Board} (h : Reachable b) :
    ∀ i ∈ b.seen, ∃ t : Tile, b.tiles[i]? = some t ∧ t.mine = false := by
  intro i hi
  obtain ⟨-, hsmf⟩ := Reachable_WF_SMF h
  obtain ⟨h1, h2⟩ := hsmf i hi
  refine ⟨b.tiles[i], List.getElem?_eq_getElem h1, ?_⟩
  rw [List.getElem?_eq_getElem h1] at h2
  simpa using h2

/-- C10 witness: after exposing the single safe tile of a 1-by-1 mine-free
board, index 0 is seen and is indeed a non-mine tile. -/
theorem C10_seen_only_safe_witness :
    (0 ∈ exposedBoard.seen) ∧
    (∃ t : Tile, exposedBoard.tiles[0]? = some t ∧ t.mine = false) := by
  refine ⟨by decide, ?_⟩
  refine C10_seen_only_safe ?_ 0 (by decide)
  exact @Reachable.expose_step (newBoard 1 1 0 ∅) exposedBoard (0, 0) false
    (@Reachable.base 1 1 0 ∅ (newBoard 1 1 0 ∅) rfl (by decide) rfl)
    (by decide)

/-- C1 counterexample: on a 2-by-2 board the coordinate `(0, 2)` has
`c = 2 ≥ columns = 2`, yet `expose` succeeds (and floods the whole board:
`seen` grows to 4) and `flag` succeeds, instead of failing with the
"no such tile" error as the claim requires. -/
theorem C1_counterexample :
    ((newBoard 2 2 0 ∅).expose (0, 2)).isOk = true ∧
    ((newBoard 2 2 0 ∅).expose (0, 2)).map (fun x => x.1.seen.card) = .ok 4 ∧
    ((newBoard 2 2 0 ∅).flag 0 2).isOk = true := by decide

/-- C1 (amended): `expose` and `flag` fail with the "no such tile" error
exactly when the linear index `r * columns + c` is at least `rows * columns`
(out-of-range coordinates whose linear index is still in range are silently
aliased to the tile at that index); when the error occurs it is raised before
any write. -/
theorem C1_no_such_tile {b : Board} (hreach : Reachable b) (r c : ℕ) :
    (index_from_coord (r, c) b.columns < b.tiles.length →
      (b.expose (r, c)).isOk = true ∧ (b.flag r c).isOk = true) ∧
    (b.tiles.length ≤ index_from_coord (r, c) b.columns →
      b.expose (r, c) = .error (Error.GetTile (r, c)) ∧
      b.flag r c = .error (Error.GetTile (r, c))) := by
  constructor
  · intro hlt
    obtain ⟨t, ht⟩ : ∃ t, b.tiles[index_from_coord (r, c) b.columns]? = some t :=
      ⟨_, List.getElem?_eq_getElem hlt⟩
    constructor
    · cases hmt : t.mine with
      | true =>
        rw [expose_mine ht hmt]
        rfl
      | false =>
        rw [expose_not_mine ht hmt]
        have hq : ∀ q ∈ [(r, c)], qGood b q := by
          intro q hmem
          rcases List.mem_cons.mp hmem with rfl | hmem
          · refine ⟨hlt, ?_⟩
            rw [ht]
            simpa using hmt
          · exact absurd hmem (List.not_mem_nil q)
        obtain ⟨bf, heq, -⟩ := exposeLoop_spec (exposeFuel b) b [(r, c)]
          (Reachable_WF_SMF hreach).1 hq (loopFuelLB_single b (r, c))
        rw [heq]
        rfl
    · cases htf : t.flagged with
      | true =>
        rw [flag_was_flagged ht htf]
        rfl
      | false =>
        cases hbudget : (decide (b.flagged_cells < b.mines) && !t.exposed) with
        | true =>
          rw [flag_fresh ht htf hbudget]
          rfl
        | false =>
          rw [flag_rejected ht htf hbudget]
          rfl
  · intro hge
    have hnone : b.tiles[index_from_coord (r, c) b.columns]? = none :=
      List.getElem?_eq_none hge
    exact ⟨expose_none hnone, flag_none hnone⟩

/-- C1 witness: on a fresh 2-by-2 board, the amended characterisation applied
at the aliasing coordinate `(0, 2)`. -/
theorem C1_no_such_tile_witness :
    (index_from_coord (0, 2) (newBoard 2 2 0 ∅).columns <
        (newBoard 2 2 0 ∅).tiles.length →
      ((newBoard 2 2 0 ∅).expose (0, 2)).isOk = true ∧
      ((newBoard 2 2 0 ∅).flag 0 2).isOk = true) ∧
    ((newBoard 2 2 0 ∅).tiles.length ≤
        index_from_coord (0, 2) (newBoard 2 2 0 ∅).columns →
      (newBoard 2 2 0 ∅).expose (0, 2) = .error (Error.GetTile (0, 2)) ∧
      (newBoard 2 2 0 ∅).flag 0 2 = .error (Error.GetTile (0, 2))) :=
  C1_no_such_tile (@Reachable.base 2 2 0 ∅ (newBoard 2 2 0 ∅) rfl (by decide) rfl) 0 2

/-- C4 counterexample: `Board::new` with `rows = 0` (and `columns = 5`,
`mines = 0`, which the sampler accepts) returns `Ok` with a Board instead of
failing with a construction error. -/
theorem C4_counterexample : (Board.new 0 5 0 ∅).isOk = true := by decide

/-- C4 (amended): `Board::new` performs no parameter validation and never
returns a construction error: for every parameter combination for which the
mine sampler can return a sample set, it returns `Ok` with the built board
(degenerate zero-dimension boards included). -/
theorem C4_new_never_fails (rows columns mines : ℕ) (samples : Finset ℕ) :
    Board.new rows columns mines samples = .ok (newBoard rows columns mines samples) :=
  rfl

/-- C2 failing evaluation: on a 1-by-1 board whose single tile is a mine,
`flag` then `flag` again (flag and unflag the mine) ends with
`flagged_cells = 0` and the tile unflagged as the claim says, but
`correctly_flagged_mines` is still 1 — the unflag branch never decrements
it. -/
theorem C2_unflag_no_decrement :
    (((newBoard 1 1 1 {0}).flag 0 0).bind (fun x => x.1.flag 0 0)).map
      (fun x => (x.1.flagged_cells, x.1.correctly_flagged_mines,
        ((x.1.tiles[0]?).map Tile.flagged).getD true, x.2)) =
      .ok (0, 1, false, false) := by decide

/-- C3 failing evaluation: flagging, unflagging and re-flagging the mine of a
1-by-1 board drives `correctly_flagged_mines` to 2 while `mines = 1` and
`|seen| + correctly_flagged_mines = 2 > rows * columns = 1`, violating two of
the claimed invariants (and the `assert!` inside `Board::won`). -/
theorem C3_invariants_violated :
    ((((newBoard 1 1 1 {0}).flag 0 0).bind (fun x => x.1.flag 0 0)).bind
      (fun x => x.1.flag 0 0)).map
      (fun x => (x.1.correctly_flagged_mines, x.1.mines,
        x.1.seen.card, x.1.rows * x.1.columns)) = .ok (2, 1, 0, 1) := by decide

/-- C5 failing evaluation: exposing the mine of a 1-by-1 board and then
calling `flag` on it (an unflagged, already-exposed tile) leaves the flag
state and `flagged_cells` unchanged and returns the would-be toggle result
`true` as claimed, but `correctly_flagged_mines` changes from 0 to 1 — the
board is not left unchanged. -/
theorem C5_rejected_flag_mutates :
    (((newBoard 1 1 1 {0}).expose (0, 0)).bind (fun x => x.1.flag 0 0)).map
      (fun x => (((x.1.tiles[0]?).map Tile.flagged).getD true,
        x.1.flagged_cells, x.1.correctly_flagged_mines, x.2)) =
      .ok (false, 0, 1, true) := by decide

/-- C6 failing evaluation: on a 1-by-2 board with its mine at index 0,
flagging, unflagging and re-flagging the mine reaches a state where `won()`
returns `true` although the non-mine tile at index 1 has never been seen. -/
theorem C6_won_without_seen :
    ((((newBoard 1 2 1 {0}).flag 0 0).bind (fun x => x.1.flag 0 0)).bind
      (fun x => x.1.flag 0 0)).map
      (fun x => (x.1.won, ((x.1.tiles[1]?).map Tile.mine).getD true,
        decide (1 ∈ x.1.seen))) = .ok (true, false, false) := by decide

/-- C7 witness: a concrete 2-by-2 mine-free board, exposing `(0, 0)`. -/
theorem C7_flood_fill_completeness_witness :
    ((newBoard 2 2 0 ∅).expose (0, 0)).map
      (fun x => (x.1.tiles.all (fun t => t.exposed), x.2)) = .ok (true, false) :=
  C7_flood_fill_completeness rfl rfl (by decide) (by decide)
